import Mathlib

/-!
Verification of the tic-tac-toe reinforcement-learning service.

The definitions below shallowly embed the game-logic portion of the
Node server (`src/server/src/index.ts`): the winner check over the eight
lines, the per-ply `playTurn` reward computation and `learn` payload, the
`Board` constructor that replays a turn history into a 9-cell occupancy,
the `/api/move` handler, and the `/api/game` self-play loop.  Components
of the Python learning agent that are not part of the server source
(policy-engine move selection and value-table persistence) are modelled
from the specification and marked as such in their doc comments.

JS values are mapped as follows: a square is `Option Player` (`null`
becomes `none`), a board is a `List (Option Player)` of length 9, JS
array indexing `board[i]` becomes `List.getD i none` (out-of-range reads
give `undefined`, which the winner check treats exactly like `null`),
and the reward float becomes `ℚ` (all reward values are exact halves).
-/

inductive Player where
  | X : Player
  | O : Player
deriving DecidableEq, Repr, Inhabited

def Player.opp : Player → Player
  | .X => .O
  | .O => .X

abbrev Cell := Option Player

/-- Result of `checkWinner`: a winning symbol or a draw; `Option GameResult`
with `none` corresponds to the JS `null` (game continues). -/
inductive GameResult where
  | win : Player → GameResult
  | draw : GameResult
deriving DecidableEq, Repr, Inhabited

/-- The eight winning lines (3 rows, 3 columns, 2 diagonals), in the exact
order the source lists them. -/
def lines : List (Nat × Nat × Nat) :=
  [(0, 1, 2), (3, 4, 5), (6, 7, 8),
   (0, 3, 6), (1, 4, 7), (2, 5, 8),
   (0, 4, 8), (2, 4, 6)]

/-- One iteration of the `for` loop of `checkWinner`: the JS condition
`board[a] && board[a] === board[b] && board[a] === board[c]`. -/
def lineWinner (b : List Cell) (l : Nat × Nat × Nat) : Option Player :=
  match b.getD l.1 none with
  | some p =>
      if b.getD l.2.1 none = some p ∧ b.getD l.2.2 none = some p then some p
      else none
  | none => none

/-- `checkWinner` from the server source: first winning line in order, else
`draw` when every square is non-null, else `null`. -/
def checkWinner (b : List Cell) : Option GameResult :=
  match lines.findSome? (lineWinner b) with
  | some p => some (.win p)
  | none => if b.all (fun s => s.isSome) then some .draw else none

/-- `Board.won` from the history-based server revision: same eight-line scan,
but with no draw / full-board clause. -/
def won (b : List Cell) : Option Player :=
  lines.findSome? (lineWinner b)

/-- The empty 9-cell board (`Array(9).fill(null)` / the `Board` constructor's
initial `[null, ..., null]`). -/
def emptyBoard : List Cell := List.replicate 9 none

/-- A turn of the history-based revision: `{ player, turn }` where `turn` is
the cell index. -/
structure Turn where
  player : Player
  turn : Nat
deriving DecidableEq, Repr

/-- The `Board` constructor: replay the turn list into the occupancy array,
each turn overwriting its cell (`this.board[turn.turn] = turn.player`).
This uses `List.set`, which is exact for in-range cell indices; the variant
`boardOfJs` below also reproduces the JS behaviour on out-of-range
indices. -/
def boardOf (turns : List Turn) : List Cell :=
  turns.foldl (fun b t => b.set t.turn (some t.player)) emptyBoard

/-- JS array assignment `arr[i] = v`: an in-range write updates the slot,
an out-of-range write extends the array with holes (`undefined`, which the
game logic reads exactly like `null`) up to index `i` and puts `v` there,
making the length `i + 1`. -/
def jsSet (l : List Cell) (i : Nat) (v : Cell) : List Cell :=
  if i < l.length then l.set i v
  else l ++ List.replicate (i - l.length) none ++ [v]

/-- The `Board` constructor replay with full JS array semantics: identical
to `boardOf` on histories whose cell indices are all in [0,8], and
additionally extending the array when a turn's index is out of range, as
`this.board[turn.turn] = turn.player` does in JS. -/
def boardOfJs (turns : List Turn) : List Cell :=
  turns.foldl (fun b t => jsSet b t.turn (some t.player)) emptyBoard

/-- Serialization used by `playTurn`:
`board.map(s => s === null ? '-' : s).join('')`. -/
def cellChar : Cell → Char
  | none => '-'
  | some .X => 'X'
  | some .O => 'O'

def serializeBoard (b : List Cell) : String :=
  String.mk (b.map cellChar)

/-- `encode`: the board key of a history, i.e. the serialization of the
occupancy obtained by replaying it. -/
def encode (turns : List Turn) : String :=
  serializeBoard (boardOf turns)

/-- Payload of the `learn` call issued by `playTurn`. -/
structure LearnCall where
  state : String
  action : Nat
  next : String
  reward : ℚ
  done : Bool
  player : Player
deriving DecidableEq, Repr, Inhabited

/-- `playTurn` from the server source: place the player's symbol, compute the
immediate reward (1 win / 0.5 draw / -1 opponent win / 0 otherwise) and the
`learn` payload for the `(stateBeforeMove, move)` pair. -/
def playTurn (board : List Cell) (p : Player) (move : Nat) :
    List Cell × LearnCall :=
  let stateBeforeMove := serializeBoard board
  let newBoard := board.set move (some p)
  let winner := checkWinner newBoard
  let reward : ℚ :=
    match winner with
    | some (.win q) => if q = p then 1 else -1
    | some .draw => 1/2
    | none => 0
  (newBoard,
   ⟨stateBeforeMove, move, serializeBoard newBoard, reward,
    winner.isSome && winner != some .draw, p⟩)

/-- Sequential application of `playTurn` along a list of moves, collecting the
`learn` payloads, as the agent-vs-agent game loop does. -/
def runPlays : List Cell → List (Player × Nat) → List LearnCall
  | _, [] => []
  | b, m :: rest =>
      (playTurn b m.1 m.2).2 :: runPlays (playTurn b m.1 m.2).1 rest

/-- The `learn` payloads produced when a whole game history is played from the
empty board through `playTurn`. -/
def learnCalls (moves : List (Player × Nat)) : List LearnCall :=
  runPlays emptyBoard moves

/-- The board reached by applying moves with `playTurn` from a given board
(`playTurn` returns `board.set move symbol`). -/
def applyPlays (b : List Cell) (moves : List (Player × Nat)) : List Cell :=
  moves.foldl (fun b m => b.set m.2 (some m.1)) b

/-- Response of the `/api/move` handler: the resulting board and the status
string sent to the client. -/
structure ApiResponse where
  board : List Cell
  status : String
deriving DecidableEq, Repr

/-- Status string for a terminal result:
`winner === 'draw' ? 'draw' : winner + '-wins'`. -/
def statusOf : GameResult → String
  | .win .X => "X-wins"
  | .win .O => "O-wins"
  | .draw => "draw"

/-- The `/api/move` handler of the `playTurn` revision: apply the human `X`
move through `playTurn` (no emptiness or terminality check), answer if the
game is over, otherwise apply the agent `O` move (the agent's reply is the
`agentMove` parameter; `none` is the JS `null` reply) and answer. -/
def apiMove (board : List Cell) (move : Nat) (agentMove : Option Nat) :
    ApiResponse :=
  let b1 := (playTurn board .X move).1
  match checkWinner b1 with
  | some w => ⟨b1, statusOf w⟩
  | none =>
      let b2 := match agentMove with
        | some am => (playTurn b1 .O am).1
        | none => b1
      match checkWinner b2 with
      | some w => ⟨b2, statusOf w⟩
      | none => ⟨b2, "in-progress"⟩

/-- Termination test of `runTurn` in the history-based revision:
`board.won() || history.length === 9`. -/
def runTurnEnds (history : List Turn) : Bool :=
  (won (boardOf history)).isSome || history.length == 9

/-- The `/api/game` self-play loop body: while the history is shorter than 9,
get a move, append it, and stop when `runTurn` answers (board won or history
full).  `f` stands for the remote agent's move choice; the explicit fuel is
the loop's own bound of 9 iterations. -/
def gameLoop (f : List Turn → Turn) : Nat → List Turn → List Turn
  | 0, h => h
  | fuel + 1, h =>
      if 9 ≤ h.length then h
      else
        let h2 := h ++ [f h]
        if runTurnEnds h2 then h2 else gameLoop f fuel h2

/-- The `/api/game` handler: run the self-play loop from the empty history. -/
def apiGame (f : List Turn → Turn) : List Turn :=
  gameLoop f 9 []

/-- Value table of the learning agent, keyed by `(board key, cell)`.
Modelled from the spec: the agent source is not under `src/`; section 3
describes the table as a mapping from (Board key, Cell index) to a scalar
estimate, represented here as an association list with exact rationals in
place of finite floats. -/
def ValueTable : Type := List ((String × Nat) × ℚ)

/-- Durable snapshot format.  Modelled from the spec: section 6 specifies a
mapping from board key to a mapping from legal cell index to value. -/
def Snapshot : Type := List (String × List (Nat × ℚ))

/-- `save`.  Modelled from the spec: the Persistence Adapter writes the table
in the snapshot format, grouping consecutive entries of the same board key
into that key's cell-to-value mapping. -/
def save : List ((String × Nat) × ℚ) → List (String × List (Nat × ℚ))
  | [] => []
  | e :: rest =>
      match save rest with
      | [] => [(e.1.1, [(e.1.2, e.2)])]
      | (k, cs) :: s =>
          if e.1.1 = k then (k, (e.1.2, e.2) :: cs) :: s
          else (e.1.1, [(e.1.2, e.2)]) :: (k, cs) :: s

/-- `load`.  Modelled from the spec: the Persistence Adapter reads the
snapshot back into the flat table, key by key. -/
def load : List (String × List (Nat × ℚ)) → List ((String × Nat) × ℚ)
  | [] => []
  | (k, cs) :: s => cs.map (fun cv => ((k, cv.1), cv.2)) ++ load s

/-- Legal cells of a board: indices in [0,8] whose square is empty.
Modelled from the spec: section 4.2, "enumerate legal cells (currently empty
in the derived board key)". -/
def legalCells (b : List Cell) : List Nat :=
  (List.range 9).filter (fun i => b.getD i none = none)

/-- Exploitation scan.  Modelled from the spec: keep the current best cell
unless a strictly higher stored value appears, so ties go to the earlier
(lower-indexed) cell. -/
def pickBestAux (table : String → Nat → ℚ) (key : String) :
    Nat → List Nat → Nat
  | best, [] => best
  | best, c :: rest =>
      if table key best < table key c then pickBestAux table key c rest
      else pickBestAux table key best rest

/-- Exploitation choice.  Modelled from the spec: the legal cell with the
highest stored value, ties broken by lowest cell index (`legalCells` is in
ascending index order); `none` only when there is no legal cell. -/
def pickBest (table : String → Nat → ℚ) (key : String) :
    List Nat → Option Nat
  | [] => none
  | c :: rest => some (pickBestAux table key c rest)

/-- `selectMove`.  Modelled from the spec: section 4.2 of the Policy Engine,
whose source (the Python agent) is not under `src/`.  The caller-side coin
flip for the exploration rate is the `explore` flag and the uniform draw is
the index `r` reduced modulo the number of legal cells; exploitation is the
tie-broken argmax over stored values. -/
def selectMove (table : String → Nat → ℚ) (history : List Turn)
    (explore : Bool) (r : Nat) : Option Nat :=
  let key := boardOf history
  let legal := legalCells key
  if explore then legal[r % legal.length]?
  else pickBest table (serializeBoard key) legal

/-- A line of the board completed by symbol `s`. -/
def lineWon (b : List Cell) (l : Nat × Nat × Nat) (s : Player) : Prop :=
  b.getD l.1 none = some s ∧ b.getD l.2.1 none = some s ∧
    b.getD l.2.2 none = some s

/-- Example history: `X` wins the top row on ply 5. -/
def winHist : List (Player × Nat) :=
  [(.X, 0), (.O, 3), (.X, 1), (.O, 4), (.X, 2)]

/-- Example history: `X`'s ply-5 move at cell 8 is immediately followed by
`O` completing the top row on ply 6. -/
def lossHist : List (Player × Nat) :=
  [(.X, 3), (.O, 0), (.X, 4), (.O, 1), (.X, 8), (.O, 2)]

theorem lineWinner_eq_some_iff {b : List Cell} {l : Nat × Nat × Nat}
    {s : Player} : lineWinner b l = some s ↔ lineWon b l s := by
  unfold lineWinner lineWon
  rcases h : b.getD l.1 none with _ | p
  · simp
  · dsimp only
    by_cases hc : b.getD l.2.1 none = some p ∧ b.getD l.2.2 none = some p
    · rw [if_pos hc]
      constructor
      · intro h0
        obtain rfl : p = s := by injection h0
        exact ⟨rfl, hc.1, hc.2⟩
      · rintro ⟨h1, _, _⟩
        exact h1
    · rw [if_neg hc]
      constructor
      · intro h0
        exact Option.noConfusion h0
      · rintro ⟨h1, h2, h3⟩
        obtain rfl : p = s := by injection h1
        exact absurd ⟨h2, h3⟩ hc

theorem noLineWon_iff {b : List Cell} :
    lines.findSome? (lineWinner b) = none ↔
      ∀ l ∈ lines, ∀ s, ¬ lineWon b l s := by
  rw [List.findSome?_eq_none_iff]
  constructor
  · intro h l hl s hws
    have := h l hl
    rw [lineWinner_eq_some_iff.mpr hws] at this
    exact Option.noConfusion this
  · intro h l hl
    rcases hw : lineWinner b l with _ | s
    · rfl
    · exact absurd (lineWinner_eq_some_iff.mp hw) (h l hl s)

theorem all_isSome_iff {b : List Cell} :
    (b.all fun s => s.isSome) = true ↔ ∀ c ∈ b, c ≠ none := by
  rw [List.all_eq_true]
  constructor
  · intro h c hc
    have := h c hc
    rcases c with _ | p
    · simp at this
    · simp
  · intro h c hc
    have := h c hc
    rcases c with _ | p
    · exact absurd rfl this
    · simp

theorem checkWinner_none_iff {b : List Cell} :
    checkWinner b = none ↔
      (∀ l ∈ lines, ∀ s, ¬ lineWon b l s) ∧ ∃ c ∈ b, c = none := by
  unfold checkWinner
  rcases hf : lines.findSome? (lineWinner b) with _ | p
  · simp only []
    by_cases hall : (b.all fun s => s.isSome) = true
    · simp only [hall, if_pos]
      constructor
      · intro h
        exact Option.noConfusion h
      · rintro ⟨_, c, hc, rfl⟩
        exact absurd rfl ((all_isSome_iff.mp hall) none hc)
    · simp only [hall, if_neg]
      constructor
      · intro _
        refine ⟨noLineWon_iff.mp hf, ?_⟩
        by_contra hno
        push_neg at hno
        exact hall (all_isSome_iff.mpr hno)
      · intro _
        rfl
  · simp only []
    constructor
    · intro h
      exact Option.noConfusion h
    · rintro ⟨hno, _⟩
      obtain ⟨l, hl, hw⟩ := List.exists_of_findSome?_eq_some hf
      exact absurd (lineWinner_eq_some_iff.mp hw) (hno l hl p)

theorem checkWinner_win_elim {b : List Cell} {s : Player}
    (h : checkWinner b = some (.win s)) : ∃ l ∈ lines, lineWon b l s := by
  unfold checkWinner at h
  rcases hf : lines.findSome? (lineWinner b) with _ | p
  · rw [hf] at h
    simp only [] at h
    by_cases hall : (b.all fun s => s.isSome) = true
    · rw [if_pos hall] at h
      exact absurd h (by simp)
    · rw [if_neg hall] at h
      exact Option.noConfusion h
  · rw [hf] at h
    simp only [Option.some.injEq, GameResult.win.injEq] at h
    obtain ⟨l, hl, hw⟩ := List.exists_of_findSome?_eq_some hf
    exact ⟨l, hl, h ▸ lineWinner_eq_some_iff.mp hw⟩

theorem checkWinner_win_intro {b : List Cell}
    (h : ∃ l ∈ lines, ∃ s, lineWon b l s) :
    ∃ s, checkWinner b = some (.win s) ∧ ∃ l ∈ lines, lineWon b l s := by
  rcases hf : lines.findSome? (lineWinner b) with _ | p
  · obtain ⟨l, hl, s, hws⟩ := h
    exact absurd hws (noLineWon_iff.mp hf l hl s)
  · refine ⟨p, ?_, ?_⟩
    · unfold checkWinner
      rw [hf]
    · obtain ⟨l, hl, hw⟩ := List.exists_of_findSome?_eq_some hf
      exact ⟨l, hl, lineWinner_eq_some_iff.mp hw⟩

theorem getD_set_self {l : List Cell} {i : Nat} {a : Cell}
    (h : i < l.length) : (l.set i a).getD i none = a := by
  rw [List.getD_eq_getElem?_getD, List.getElem?_set_self h]
  rfl

theorem getD_set_ne {l : List Cell} {i j : Nat} {a : Cell}
    (h : i ≠ j) : (l.set i a).getD j none = l.getD j none := by
  rw [List.getD_eq_getElem?_getD, List.getElem?_set_ne h,
    List.getD_eq_getElem?_getD]

theorem checkWinner_draw_iff {b : List Cell} :
    checkWinner b = some .draw ↔
      (∀ l ∈ lines, ∀ s, ¬ lineWon b l s) ∧ ∀ c ∈ b, c ≠ none := by
  unfold checkWinner
  rcases hf : lines.findSome? (lineWinner b) with _ | p
  · simp only []
    by_cases hall : (b.all fun s => s.isSome) = true
    · rw [if_pos hall]
      constructor
      · intro _
        exact ⟨noLineWon_iff.mp hf, all_isSome_iff.mp hall⟩
      · intro _
        rfl
    · rw [if_neg hall]
      constructor
      · intro h
        exact Option.noConfusion h
      · rintro ⟨_, hfull⟩
        exact absurd (all_isSome_iff.mpr hfull) hall
  · simp only [Option.some.injEq]
    constructor
    · intro h
      exact GameResult.noConfusion h
    · rintro ⟨hno, _⟩
      obtain ⟨l, hl, hw⟩ := List.exists_of_findSome?_eq_some hf
      exact absurd (lineWinner_eq_some_iff.mp hw) (hno l hl p)

/-- C3: for every 9-cell board occupancy, `checkWinner` returns the symbol
occupying one of the eight winning lines when such a line is completed,
returns `draw` exactly when no line is won and all 9 cells are occupied, and
returns `null` (game continues) in every other case. -/
theorem claim3_checkWinner_correct (b : List Cell) (hb : b.length = 9) :
    (∀ s, checkWinner b = some (.win s) → ∃ l ∈ lines, lineWon b l s) ∧
    ((∃ l ∈ lines, ∃ s, lineWon b l s) →
      ∃ s, checkWinner b = some (.win s) ∧ ∃ l ∈ lines, lineWon b l s) ∧
    (checkWinner b = some .draw ↔
      (∀ l ∈ lines, ∀ s, ¬ lineWon b l s) ∧ ∀ c ∈ b, c ≠ none) ∧
    (checkWinner b = none ↔
      (∀ l ∈ lines, ∀ s, ¬ lineWon b l s) ∧ ∃ c ∈ b, c = none) :=
  ⟨fun _ h => checkWinner_win_elim h, checkWinner_win_intro,
    checkWinner_draw_iff, checkWinner_none_iff⟩

/-- Witness for C3 at a concrete board: top row of `X` is detected. -/
theorem claim3_witness :
    ∃ l ∈ lines,
      lineWon [some Player.X, some .X, some .X, some .O, some .O,
        none, none, none, none] l Player.X :=
  (claim3_checkWinner_correct
      [some Player.X, some .X, some .X, some .O, some .O,
        none, none, none, none] (by decide)).1
    Player.X (by decide)

/-- C10: placing the mover's own symbol on an empty cell of a board that has
no winner never produces a board whose winner is the opponent, so the
`reward = -1` branch of `playTurn` cannot fire under these preconditions. -/
theorem claim10_opponent_reward_unreachable (b : List Cell) (p : Player)
    (m : Nat) (hlen : b.length = 9) (hm : m < 9)
    (hnw : checkWinner b = none) (hemp : b.getD m none = none) :
    checkWinner (b.set m (some p)) ≠ some (.win p.opp) ∧
    (playTurn b p m).2.reward ≠ -1 := by
  have hnoline : ∀ l ∈ lines, ∀ s, ¬ lineWon b l s :=
    (checkWinner_none_iff.mp hnw).1
  have hmain : checkWinner (b.set m (some p)) ≠ some (.win p.opp) := by
    intro hwin
    obtain ⟨l, hl, hw⟩ := checkWinner_win_elim hwin
    obtain ⟨h1, h2, h3⟩ := hw
    have hne : p ≠ p.opp := by
      cases p
      · intro h
        exact Player.noConfusion h
      · intro h
        exact Player.noConfusion h
    have hset : (b.set m (some p)).getD m none = some p :=
      getD_set_self (hlen ▸ hm)
    have hm1 : m ≠ l.1 := by
      intro h
      rw [← h, hset] at h1
      exact hne (by injection h1)
    have hm2 : m ≠ l.2.1 := by
      intro h
      rw [← h, hset] at h2
      exact hne (by injection h2)
    have hm3 : m ≠ l.2.2 := by
      intro h
      rw [← h, hset] at h3
      exact hne (by injection h3)
    rw [getD_set_ne hm1] at h1
    rw [getD_set_ne hm2] at h2
    rw [getD_set_ne hm3] at h3
    exact hnoline l hl p.opp ⟨h1, h2, h3⟩
  refine ⟨hmain, ?_⟩
  show (let stateBeforeMove := serializeBoard b
        let newBoard := b.set m (some p)
        let winner := checkWinner newBoard
        let reward : ℚ :=
          match winner with
          | some (.win q) => if q = p then 1 else -1
          | some .draw => 1/2
          | none => 0
        (newBoard,
          (⟨stateBeforeMove, m, serializeBoard newBoard, reward,
            winner.isSome && winner != some .draw, p⟩ : LearnCall))).2.reward
      ≠ -1
  simp only []
  rcases hw : checkWinner (b.set m (some p)) with _ | w
  · intro h
    exact absurd h.symm (by norm_num)
  · rcases w with q | _
    · dsimp only
      by_cases hq : q = p
      · rw [if_pos hq]
        intro h
        exact absurd h.symm (by norm_num)
      · exfalso
        have : q = p.opp := by
          cases q <;> cases p <;> first | rfl | exact absurd rfl hq
        exact hmain (this ▸ hw)
    · dsimp only
      intro h
      exact absurd h.symm (by norm_num)

/-- Witness for C10: from the empty board, `X` playing cell 0 cannot hand the
win to `O`, and the reward is not `-1`. -/
theorem claim10_witness :
    checkWinner (emptyBoard.set 0 (some Player.X)) ≠
      some (.win Player.X.opp) ∧
    (playTurn emptyBoard Player.X 0).2.reward ≠ -1 :=
  claim10_opponent_reward_unreachable emptyBoard Player.X 0
    (by decide) (by decide) (by decide) (by decide)

theorem playTurn_fst (b : List Cell) (p : Player) (c : Nat) :
    (playTurn b p c).1 = b.set c (some p) := rfl

theorem playTurn_reward_eq (b : List Cell) (p : Player) (c : Nat) :
    (playTurn b p c).2.reward =
      match checkWinner (b.set c (some p)) with
      | some (.win q) => if q = p then (1 : ℚ) else -1
      | some .draw => 1/2
      | none => 0 := rfl

theorem runPlays_getD (d : LearnCall) (moves : List (Player × Nat)) :
    ∀ (b : List Cell) (i : Nat), i < moves.length →
      (runPlays b moves).getD i d =
        (playTurn (applyPlays b (moves.take i))
          (moves.getD i (Player.X, 0)).1 (moves.getD i (Player.X, 0)).2).2 := by
  induction moves with
  | nil =>
      intro b i hi
      exact absurd hi (by simp)
  | cons m rest ih =>
      intro b i hi
      cases i with
      | zero =>
          simp [runPlays, applyPlays]
      | succ i =>
          have hlen : i < rest.length := by simpa using hi
          have h := ih (playTurn b m.1 m.2).1 i hlen
          simpa [runPlays, applyPlays, playTurn_fst] using h

/-- C1 counterexample: in the history where `X` wins on ply 5 (`t = 5`), the
terminal winning ply's `learn` call carries reward 1, not
`100 + (9 - 5) * 5 = 120`. -/
theorem claim1_counterexample :
    ((learnCalls winHist).getD 4 default).done = true ∧
    ((learnCalls winHist).getD 4 default).player = Player.X ∧
    ((learnCalls winHist).getD 4 default).reward = 1 ∧
    (100 + ((9 : ℚ) - 5) * 5 = 120) ∧
    ¬ ((learnCalls winHist).getD 4 default).reward = 120 :=
  ⟨by decide, by decide, by decide, by norm_num, by decide⟩

/-- C1 (amended): the immediate reward `playTurn` sends for a terminal ply is
the fixed value 1 when the ply's actor wins and 1/2 when the game ends in a
draw, independent of the move number. -/
theorem claim1_trainer_reward (moves : List (Player × Nat)) (i : Nat)
    (p : Player) (c : Nat) (hi : i < moves.length)
    (hmv : moves.getD i (Player.X, 0) = (p, c)) :
    (checkWinner ((applyPlays emptyBoard (moves.take i)).set c (some p)) =
        some (.win p) → ((learnCalls moves).getD i default).reward = 1) ∧
    (checkWinner ((applyPlays emptyBoard (moves.take i)).set c (some p)) =
        some .draw → ((learnCalls moves).getD i default).reward = 1/2) := by
  have h := runPlays_getD default moves emptyBoard i hi
  rw [hmv] at h
  unfold learnCalls
  rw [h]
  constructor
  · intro hw
    rw [playTurn_reward_eq, hw]
    simp
  · intro hw
    rw [playTurn_reward_eq, hw]

/-- Witness for C1 (amended): the winning ply of `winHist` gets reward 1. -/
theorem claim1_witness :
    ((learnCalls winHist).getD 4 default).reward = 1 :=
  (claim1_trainer_reward winHist 4 Player.X 2 (by decide) (by decide)).1
    (by decide)

/-- C2 counterexample: in the history where `X`'s ply 5 (`t = 5`) is
immediately followed by `O` winning on ply 6, the pre-loss ply's `learn`
call carries reward 0, not `-100 - (9 - 5) * 5 = -120`. -/
theorem claim2_counterexample :
    ((learnCalls lossHist).getD 5 default).done = true ∧
    ((learnCalls lossHist).getD 5 default).player = Player.O ∧
    ((learnCalls lossHist).getD 4 default).player = Player.X ∧
    ((learnCalls lossHist).getD 4 default).reward = 0 ∧
    (-100 - ((9 : ℚ) - 5) * 5 = -120) ∧
    ¬ ((learnCalls lossHist).getD 4 default).reward = -120 :=
  ⟨by decide, by decide, by decide, by decide, by norm_num, by decide⟩

/-- C2 (amended): every ply whose resulting board is non-terminal — in
particular the ply immediately preceding an opponent win — receives immediate
reward 0 from `playTurn`; no penalty is applied. -/
theorem claim2_preloss_reward_zero (moves : List (Player × Nat)) (i : Nat)
    (p : Player) (c : Nat) (hi : i < moves.length)
    (hmv : moves.getD i (Player.X, 0) = (p, c))
    (hw : checkWinner ((applyPlays emptyBoard (moves.take i)).set c (some p)) =
      none) : ((learnCalls moves).getD i default).reward = 0 := by
  have h := runPlays_getD default moves emptyBoard i hi
  rw [hmv] at h
  unfold learnCalls
  rw [h, playTurn_reward_eq, hw]

/-- Witness for C2 (amended): the ply of `lossHist` that lets `O` win next
gets reward 0. -/
theorem claim2_witness :
    ((learnCalls lossHist).getD 4 default).reward = 0 :=
  claim2_preloss_reward_zero lossHist 4 Player.X 8 (by decide) (by decide)
    (by decide)

theorem foldl_set_of_perm {l1 l2 : List Turn} (hp : l1.Perm l2) :
    (l1.map Turn.turn).Nodup → ∀ b : List Cell,
      l1.foldl (fun b t => b.set t.turn (some t.player)) b =
      l2.foldl (fun b t => b.set t.turn (some t.player)) b := by
  induction hp with
  | nil =>
      intro _ b
      rfl
  | cons x h ih =>
      intro hnd b
      simp only [List.map_cons, List.nodup_cons] at hnd
      simp only [List.foldl_cons]
      exact ih hnd.2 _
  | swap x y l =>
      intro hnd b
      simp only [List.map_cons, List.nodup_cons, List.mem_cons] at hnd
      have hxy : y.turn ≠ x.turn := fun h => hnd.1 (Or.inl h)
      simp only [List.foldl_cons]
      rw [List.set_comm _ _ _ hxy]
  | trans h1 h2 ih1 ih2 =>
      intro hnd b
      rw [ih1 hnd b]
      exact ih2 ((h1.map Turn.turn).nodup hnd) b

/-- C4: encoding is invariant under reordering of a history in which each
cell index appears at most once: any permutation of the moves reaches the
same occupancy and hence the same board key. -/
theorem claim4_encode_order_invariant (h1 h2 : List Turn)
    (hperm : h1.Perm h2) (hnd : (h1.map Turn.turn).Nodup) :
    encode h1 = encode h2 := by
  unfold encode boardOf
  rw [foldl_set_of_perm hperm hnd]

/-- Witness for C4: the two orderings of `X` at 0 and `O` at 4 get the same
key. -/
theorem claim4_witness :
    encode [⟨Player.X, 0⟩, ⟨Player.O, 4⟩] =
      encode [⟨Player.O, 4⟩, ⟨Player.X, 0⟩] :=
  claim4_encode_order_invariant _ _
    (List.Perm.swap (⟨Player.O, 4⟩ : Turn) (⟨Player.X, 0⟩ : Turn) [])
    (by decide)

theorem foldl_set_length : ∀ (l : List Turn) (b : List Cell),
    (l.foldl (fun b t => b.set t.turn (some t.player)) b).length =
      b.length := by
  intro l
  induction l with
  | nil =>
      intro b
      rfl
  | cons t rest ih =>
      intro b
      rw [List.foldl_cons, ih, List.length_set]

theorem boardOf_length (turns : List Turn) : (boardOf turns).length = 9 :=
  foldl_set_length turns emptyBoard

/-- C5 counterexample: the history that reuses cell 4 is accepted by the
`Board` constructor and silently auto-corrected — the later move overwrites
the earlier one, yielding the same key as the single-move history — instead
of failing with an `IllegalHistoryError` (no such error exists in the
code). -/
theorem claim5_counterexample :
    encode [⟨Player.X, 4⟩, ⟨Player.O, 4⟩] = encode [⟨Player.O, 4⟩] ∧
    encode [⟨Player.X, 4⟩, ⟨Player.O, 4⟩] = "----O----" :=
  ⟨rfl, rfl⟩

theorem boardOfJs_eq_boardOf_aux : ∀ (l : List Turn) (b : List Cell),
    b.length = 9 → (∀ t ∈ l, t.turn < 9) →
    l.foldl (fun b t => jsSet b t.turn (some t.player)) b =
    l.foldl (fun b t => b.set t.turn (some t.player)) b := by
  intro l
  induction l with
  | nil =>
      intro b _ _
      rfl
  | cons t rest ih =>
      intro b hb hin
      simp only [List.foldl_cons]
      have ht : t.turn < b.length := by
        rw [hb]
        exact hin t (List.mem_cons_self t rest)
      rw [jsSet, if_pos ht]
      exact ih _ (by rw [List.length_set, hb])
        (fun u hu => hin u (List.mem_cons_of_mem t hu))

theorem boardOfJs_eq_boardOf (turns : List Turn)
    (h : ∀ t ∈ turns, t.turn < 9) : boardOfJs turns = boardOf turns :=
  boardOfJs_eq_boardOf_aux turns emptyBoard (by decide) h

/-- C5 (amended): the `Board` constructor performs no validation at all:
every history, malformed or not, is replayed turn by turn with plain JS
array assignment — an in-range move simply overwrites its cell (so a reused
cell is silently auto-corrected by the later move) and an out-of-range
index extends the array to length index + 1 — and no `IllegalHistoryError`
exists anywhere. -/
theorem claim5_no_validation (turns : List Turn) (t : Turn) :
    boardOfJs (turns ++ [t]) =
      jsSet (boardOfJs turns) t.turn (some t.player) ∧
    (t.turn < (boardOfJs turns).length →
      jsSet (boardOfJs turns) t.turn (some t.player) =
        (boardOfJs turns).set t.turn (some t.player)) ∧
    ((boardOfJs turns).length ≤ t.turn →
      (jsSet (boardOfJs turns) t.turn (some t.player)).length =
        t.turn + 1) := by
  refine ⟨?_, ?_, ?_⟩
  · unfold boardOfJs
    rw [List.foldl_append]
    rfl
  · intro hin
    rw [jsSet, if_pos hin]
  · intro hout
    rw [jsSet, if_neg (by omega)]
    simp only [List.length_append, List.length_replicate, List.length_cons,
      List.length_nil]
    omega

/-- Witness for C5 (amended): replaying the out-of-range turn `X` at index 9
onto the empty history extends the array to length 10, and an in-range turn
is a plain overwrite. -/
theorem claim5_witness :
    (jsSet (boardOfJs []) 9 (some Player.X)).length = 10 ∧
    jsSet (boardOfJs []) 4 (some Player.O) =
      (boardOfJs []).set 4 (some Player.O) :=
  ⟨(claim5_no_validation [] ⟨Player.X, 9⟩).2.2 (by decide),
   (claim5_no_validation [] ⟨Player.O, 4⟩).2.1 (by decide)⟩

theorem pickBestAux_mem (t : String → Nat → ℚ) (k : String) :
    ∀ (l : List Nat) (best : Nat),
      pickBestAux t k best l = best ∨ pickBestAux t k best l ∈ l := by
  intro l
  induction l with
  | nil =>
      intro best
      exact Or.inl rfl
  | cons c rest ih =>
      intro best
      unfold pickBestAux
      by_cases hlt : t k best < t k c
      · rw [if_pos hlt]
        rcases ih c with h | h
        · refine Or.inr ?_
          rw [h]
          exact List.mem_cons_self c rest
        · exact Or.inr (List.mem_cons_of_mem c h)
      · rw [if_neg hlt]
        rcases ih best with h | h
        · exact Or.inl h
        · exact Or.inr (List.mem_cons_of_mem c h)

theorem mem_legalCells {b : List Cell} {c : Nat} (h : c ∈ legalCells b) :
    b.getD c none = none := by
  unfold legalCells at h
  have := List.of_mem_filter h
  exact of_decide_eq_true this

/-- C6: for every non-terminal history and every exploration choice,
`selectMove` returns a cell that is empty in the board derived from the
history, never an occupied one. -/
theorem claim6_selectMove_legal (table : String → Nat → ℚ)
    (history : List Turn) (explore : Bool) (r : Nat)
    (hnt : checkWinner (boardOf history) = none) :
    ∃ c, selectMove table history explore r = some c ∧
      (boardOf history).getD c none = none := by
  obtain ⟨_, sq, hsq, hsqnone⟩ := checkWinner_none_iff.mp hnt
  obtain ⟨i, hilt, hieq⟩ := List.mem_iff_getElem.mp hsq
  have hlen : (boardOf history).length = 9 := boardOf_length history
  have hi9 : i < 9 := hlen ▸ hilt
  have hgetD : (boardOf history).getD i none = none := by
    rw [List.getD_eq_getElem?_getD, List.getElem?_eq_getElem hilt, hieq,
      hsqnone]
    rfl
  have hmem : i ∈ legalCells (boardOf history) := by
    unfold legalCells
    apply List.mem_filter_of_mem
    · exact List.mem_range.mpr hi9
    · exact decide_eq_true hgetD
  unfold selectMove
  by_cases hex : explore = true
  · rw [hex, if_pos rfl]
    have hne : legalCells (boardOf history) ≠ [] :=
      List.ne_nil_of_mem hmem
    have hpos : 0 < (legalCells (boardOf history)).length :=
      List.length_pos.mpr hne
    have hmod : r % (legalCells (boardOf history)).length <
        (legalCells (boardOf history)).length := Nat.mod_lt _ hpos
    refine ⟨(legalCells (boardOf history))[r %
      (legalCells (boardOf history)).length], ?_, ?_⟩
    · exact List.getElem?_eq_getElem hmod
    · exact mem_legalCells (List.getElem_mem hmod)
  · rw [if_neg hex]
    rcases hl : legalCells (boardOf history) with _ | ⟨c0, rest⟩
    · rw [hl] at hmem
      exact absurd hmem (List.not_mem_nil i)
    · refine ⟨pickBestAux table (serializeBoard (boardOf history)) c0 rest,
        rfl, ?_⟩
      apply mem_legalCells
      rw [hl]
      rcases pickBestAux_mem table (serializeBoard (boardOf history))
          rest c0 with h | h
      · rw [h]
        exact List.mem_cons_self c0 rest
      · exact List.mem_cons_of_mem c0 h

/-- Witness for C6: from the history with only `X` at the center, move
selection with an all-zero table returns an empty cell. -/
theorem claim6_witness :
    ∃ c, selectMove (fun _ _ => 0) [⟨Player.X, 4⟩] false 0 = some c ∧
      (boardOf [⟨Player.X, 4⟩]).getD c none = none :=
  claim6_selectMove_legal (fun _ _ => 0) [⟨Player.X, 4⟩] false 0 (by decide)

/-- C7: loading the durable snapshot written by `save` restores the table.
Modelled from the spec: floats are represented by exact rationals, so the
"floating-point representation tolerance" is exact equality here. -/
theorem claim7_load_save_roundtrip (T : List ((String × Nat) × ℚ)) :
    load (save T) = T := by
  induction T with
  | nil => rfl
  | cons e rest ih =>
      obtain ⟨⟨k0, c0⟩, v0⟩ := e
      rcases hs : save rest with _ | ⟨⟨k, cs⟩, s⟩
      · rw [hs] at ih
        simp only [load] at ih
        simp only [save, hs, load, List.map, List.nil_append]
        rw [← ih]
        simp
      · rw [hs] at ih
        by_cases hk : k0 = k
        · subst hk
          simp only [save, hs, if_pos rfl, load, List.map] at ih ⊢
          rw [List.cons_append, ih]
        · simp only [load] at ih
          simp only [save, hs, if_neg hk, load, List.map, List.nil_append]
          rw [ih]
          simp

theorem gameLoop_bound (f : List Turn → Turn) :
    ∀ (fuel : Nat) (h : List Turn), fuel + h.length = 9 →
      (gameLoop f fuel h).length ≤ 9 ∧
      ((won (boardOf (gameLoop f fuel h))).isSome = true ∨
        (gameLoop f fuel h).length = 9) := by
  intro fuel
  induction fuel with
  | zero =>
      intro h hinv
      unfold gameLoop
      constructor
      · omega
      · exact Or.inr (by omega)
  | succ fuel ih =>
      intro h hinv
      have hlt : h.length < 9 := by omega
      unfold gameLoop
      rw [if_neg (by omega)]
      simp only []
      by_cases hend : runTurnEnds (h ++ [f h]) = true
      · rw [if_pos hend]
        unfold runTurnEnds at hend
        rw [Bool.or_eq_true] at hend
        constructor
        · rw [List.length_append, List.length_cons, List.length_nil]
          omega
        · rcases hend with hwon | hlen
          · exact Or.inl hwon
          · exact Or.inr (by simpa using hlen)
      · rw [if_neg hend]
        apply ih
        rw [List.length_append, List.length_cons, List.length_nil]
        omega

/-- C8: the `/api/game` self-play loop appends at most 9 moves and stops
exactly when the board is won or the history reaches length 9. -/
theorem claim8_game_bounded (f : List Turn → Turn) :
    (apiGame f).length ≤ 9 ∧
    ((won (boardOf (apiGame f))).isSome = true ∨ (apiGame f).length = 9) :=
  gameLoop_bound f 9 [] (by simp)

theorem statusOf_mem (w : GameResult) :
    statusOf w ∈ ["X-wins", "O-wins", "draw", "in-progress"] := by
  rcases w with p | _
  · rcases p with _ | _
    · simp [statusOf]
    · simp [statusOf]
  · simp [statusOf]

/-- C9: the `/api/move` handler writes the human move without checking that
the cell is empty or that the game is over: the move overwrites whatever
occupies the cell and the request completes with one of the normal status
strings. -/
theorem claim9_move_unvalidated (b : List Cell) (m : Nat) (am : Option Nat)
    (hlen : b.length = 9) (hm : m < 9)
    (hocc : (b.getD m none).isSome = true) (ham : am ≠ some m) :
    (apiMove b m am).board.getD m none = some Player.X ∧
    (apiMove b m am).status ∈
      ["X-wins", "O-wins", "draw", "in-progress"] := by
  have hx : ((playTurn b .X m).1).getD m none = some Player.X := by
    rw [playTurn_fst]
    exact getD_set_self (hlen ▸ hm)
  rcases am with _ | a
  · dsimp only [apiMove]
    rcases hw : checkWinner ((playTurn b .X m).1) with _ | w
    · exact ⟨hx, by simp⟩
    · exact ⟨hx, statusOf_mem w⟩
  · have ham2 : a ≠ m := fun h => ham (by rw [h])
    have hx2 : ((playTurn ((playTurn b .X m).1) .O a).1).getD m none =
        some Player.X := by
      rw [playTurn_fst, getD_set_ne ham2]
      exact hx
    dsimp only [apiMove]
    rcases hw : checkWinner ((playTurn b .X m).1) with _ | w
    · rcases hw2 : checkWinner ((playTurn ((playTurn b .X m).1) .O a).1)
          with _ | w2
      · exact ⟨hx2, by simp⟩
      · exact ⟨hx2, statusOf_mem w2⟩
    · exact ⟨hx, statusOf_mem w⟩

/-- Witness for C9: on a board already won by `O` whose cell 0 is occupied
by `O`, the handler still overwrites cell 0 with `X` and answers normally. -/
theorem claim9_witness :
    (apiMove [some Player.O, some .O, some .O, some .X, some .X,
        none, none, none, none] 0 none).board.getD 0 none =
      some Player.X ∧
    (apiMove [some Player.O, some .O, some .O, some .X, some .X,
        none, none, none, none] 0 none).status ∈
      ["X-wins", "O-wins", "draw", "in-progress"] :=
  claim9_move_unvalidated _ 0 none (by decide) (by decide) (by decide)
    (by decide)
